import Mathlib

/-!
Shallow embedding of the file-guardian repository:
- merkle-tree crate (tree.rs, hasher.rs, error.rs)
- server crate (server.rs, store.rs)
- client crate (client.rs, main.rs, db.rs)

Byte strings are `List Nat`; the hash function is a parameter
`f : Bytes → Bytes`, mirroring the `Hasher` trait generic `H` of the Rust
code (`H::Hash` is itself viewed through `AsRef<[u8]>` as its byte string,
which is exact for `Sha256Hasher` where `Hash = [u8; 32]`).
Rust panics (out-of-bounds slice indexing) are modelled by `Option`
(`none` = panic), recoverable `Result` errors by `Except`.
-/

abbrev Bytes := List Nat

namespace Merkle

/-- `error.rs`: `MerkleTreeError`. -/
inductive MerkleTreeError where
  | EmptyData
  | InvalidIndex
  | InvalidProof
deriving DecidableEq, Repr

/-- `tree.rs` `hash_nodes`: hash of the concatenation of two digests
(left bytes first). -/
def hashNodes (f : Bytes → Bytes) (left right : Bytes) : Bytes :=
  f (left ++ right)

/-- One step of level construction in `MerkleTree::new`:
`level.chunks(2)`, a chunk of two nodes is combined with `hash_nodes`,
a trailing solo chunk is re-hashed alone (`H::hash(&chunk[0])`). -/
def buildLevel (f : Bytes → Bytes) : List Bytes → List Bytes
  | [] => []
  | [x] => [f x]
  | x :: y :: rest => hashNodes f x y :: buildLevel f rest

theorem buildLevel_length (f : Bytes → Bytes) :
    ∀ l : List Bytes, (buildLevel f l).length = (l.length + 1) / 2
  | [] => rfl
  | [_] => by simp [buildLevel]
  | _ :: _ :: rest => by
    simp [buildLevel, buildLevel_length f rest]
    omega

/-- The `std::iter::successors` loop of `MerkleTree::new`, with an explicit
fuel argument so the function stays structurally recursive (and hence
kernel-computable). `buildLevels` below instantiates the fuel with the
starting level's length, which `buildLevelsFuel_stable` proves sufficient:
the loop keeps producing parent levels while the current level has at
least two nodes (the closure returns `None` for lengths `0 | 1`). -/
def buildLevelsFuel (f : Bytes → Bytes) : Nat → List Bytes → List (List Bytes)
  | 0, level => [level]
  | fuel + 1, level =>
    if level.length < 2 then [level]
    else level :: buildLevelsFuel f fuel (buildLevel f level)

theorem buildLevelsFuel_small (f : Bytes → Bytes) (level : List Bytes)
    (h : level.length < 2) :
    ∀ fuel, buildLevelsFuel f fuel level = [level] := by
  intro fuel
  cases fuel <;> simp [buildLevelsFuel, h]

/-- Any two sufficient fuels compute the same level list. -/
theorem buildLevelsFuel_stable (f : Bytes → Bytes) (level : List Bytes) :
    ∀ (fuel fuel' : Nat), level.length ≤ fuel + 1 → level.length ≤ fuel' + 1 →
      buildLevelsFuel f fuel level = buildLevelsFuel f fuel' level := by
  intro fuel fuel' hf hf'
  by_cases h2 : level.length < 2
  · rw [buildLevelsFuel_small f level h2, buildLevelsFuel_small f level h2]
  · obtain ⟨g, rfl⟩ : ∃ g, fuel = g + 1 := ⟨fuel - 1, by omega⟩
    obtain ⟨g', rfl⟩ : ∃ g', fuel' = g' + 1 := ⟨fuel' - 1, by omega⟩
    simp only [buildLevelsFuel, if_neg h2]
    have hlen := buildLevel_length f level
    exact congrArg _ (buildLevelsFuel_stable f (buildLevel f level) g g'
      (by omega) (by omega))
termination_by level.length
decreasing_by
  simp [buildLevel_length]
  omega

/-- The level list of `MerkleTree::new`. -/
def buildLevels (f : Bytes → Bytes) (level : List Bytes) : List (List Bytes) :=
  buildLevelsFuel f level.length level

/-- `tree.rs`: the `MerkleTree` struct, a vector of levels. -/
structure MerkleTree where
  levels : List (List Bytes)
deriving DecidableEq, Repr

/-- `MerkleTree::new`: `EmptyData` on empty input, otherwise the levels built
from the hashed blocks. -/
def MerkleTree.new (f : Bytes → Bytes) (data : List Bytes) :
    Except MerkleTreeError MerkleTree :=
  if data.isEmpty then .error .EmptyData
  else .ok ⟨buildLevels f (data.map f)⟩

/-- `MerkleTree::root`: `levels.last().and_then(|level| level.first())`. -/
def MerkleTree.root (t : MerkleTree) : Option Bytes :=
  t.levels.getLast?.bind List.head?

/-- The fold inside `MerkleTree::proof` over `levels[0..len-1]`: at each
level the sibling index is `i+1` (even `i`) or `i-1` (odd `i`), and
`level[sibling_index]` is read with NO bounds check — an out-of-range
sibling index is a panic, modelled as `none`. -/
def proofAux : List (List Bytes) → Nat → Option (List Bytes)
  | [], _ => some []
  | level :: rest, i =>
    let sib := if i % 2 = 0 then i + 1 else i - 1
    match level[sib]? with
    | none => none
    | some d => (proofAux rest (i / 2)).map (fun p => d :: p)

/-- `MerkleTree::proof`: `InvalidIndex` when `index >= levels[0].len()`,
otherwise the fold over all levels but the last; the outer `Option` is
`none` when the fold panics (also when `levels` is empty, where
`self.levels[0]` itself panics — unreachable for trees from `new`). -/
def MerkleTree.proof (t : MerkleTree) (index : Nat) :
    Option (Except MerkleTreeError (List Bytes)) :=
  match t.levels with
  | [] => none
  | l0 :: _ =>
    if l0.length ≤ index then some (.error .InvalidIndex)
    else (proofAux t.levels.dropLast index).map .ok

/-- One step of the fold inside `MerkleTree::verify`: combine the running
hash with the sibling on the side given by the running index's parity,
then halve the index. -/
def verifyStep (f : Bytes → Bytes) (p : Nat × Bytes) (sibling : Bytes) :
    Nat × Bytes :=
  if p.1 % 2 = 0 then (p.1 / 2, hashNodes f p.2 sibling)
  else (p.1 / 2, hashNodes f sibling p.2)

/-- `MerkleTree::verify`: fold the proof from `(index, H::hash(data))` and
compare the final hash with the root. -/
def MerkleTree.verify (f : Bytes → Bytes) (index : Nat) (data : Bytes)
    (root : Bytes) (proof : List Bytes) : Bool :=
  (proof.foldl (verifyStep f) (index, f data)).2 == root

theorem buildLevels_ne_nil (f : Bytes → Bytes) (level : List Bytes) :
    buildLevels f level ≠ [] := by
  unfold buildLevels
  cases h : level.length <;> simp [buildLevelsFuel] <;> split <;> simp

theorem buildLevels_head (f : Bytes → Bytes) (level : List Bytes) :
    (buildLevels f level).head? = some level := by
  unfold buildLevels
  cases h : level.length <;> simp [buildLevelsFuel] <;> split <;> simp

theorem buildLevels_cons (f : Bytes → Bytes) (level : List Bytes)
    (h : ¬ level.length < 2) :
    buildLevels f level = level :: buildLevels f (buildLevel f level) := by
  unfold buildLevels
  obtain ⟨g, hg⟩ : ∃ g, level.length = g + 1 := ⟨level.length - 1, by omega⟩
  rw [hg]
  simp only [buildLevelsFuel, if_neg h]
  have hlen := buildLevel_length f level
  exact congrArg _ (buildLevelsFuel_stable f (buildLevel f level) g
    (buildLevel f level).length (by omega) (by omega))

theorem buildLevels_sing (f : Bytes → Bytes) (level : List Bytes)
    (h : level.length < 2) : buildLevels f level = [level] := by
  unfold buildLevels
  exact buildLevelsFuel_small f level h _

theorem buildLevel_get_pair (f : Bytes → Bytes) :
    ∀ (l : List Bytes) (j : Nat) (x y : Bytes), l[2 * j]? = some x →
      l[2 * j + 1]? = some y →
      (buildLevel f l)[j]? = some (hashNodes f x y)
  | [], j, x, y => by simp
  | [a], j, x, y => by
    intro _ hy
    rw [List.getElem?_eq_some] at hy
    obtain ⟨hlt, _⟩ := hy
    simp at hlt
  | a :: b :: rest, 0, x, y => by
    intro hx hy
    simp at hx hy
    simp [buildLevel, hx, hy]
  | a :: b :: rest, j + 1, x, y => by
    intro hx hy
    have e1 : 2 * (j + 1) = 2 * j + 1 + 1 := by ring
    have e2 : 2 * (j + 1) + 1 = 2 * j + 1 + 1 + 1 := by ring
    rw [e1, List.getElem?_cons_succ, List.getElem?_cons_succ] at hx
    rw [e2, List.getElem?_cons_succ, List.getElem?_cons_succ] at hy
    simpa [buildLevel] using buildLevel_get_pair f rest j x y hx hy

theorem buildLevel_get_solo (f : Bytes → Bytes) :
    ∀ (l : List Bytes) (j : Nat) (x : Bytes), l[2 * j]? = some x →
      l.length = 2 * j + 1 → (buildLevel f l)[j]? = some (f x)
  | [], j, x => by simp
  | [a], j, x => by
    intro hx hlen
    simp at hlen
    have hj : j = 0 := by omega
    subst hj
    simp at hx
    simp [buildLevel, hx]
  | a :: b :: rest, j, x => by
    intro hx hlen
    simp at hlen
    have hj : 1 ≤ j := by omega
    obtain ⟨j', rfl⟩ : ∃ j', j = j' + 1 := ⟨j - 1, by omega⟩
    have e1 : 2 * (j' + 1) = 2 * j' + 1 + 1 := by ring
    rw [e1, List.getElem?_cons_succ, List.getElem?_cons_succ] at hx
    have hlen' : rest.length = 2 * j' + 1 := by omega
    simpa [buildLevel] using buildLevel_get_solo f rest j' x hx hlen'

/-- Replaying a successfully generated proof from the indexed leaf digest
reconstructs the root digest of the built levels. -/
theorem proofAux_root (f : Bytes → Bytes) (level : List Bytes)
    (i : Nat) (hi : i < level.length) (p : List Bytes)
    (hp : proofAux ((buildLevels f level).dropLast) i = some p) (x : Bytes)
    (hx : level[i]? = some x) :
    (MerkleTree.mk (buildLevels f level)).root =
      some ((p.foldl (verifyStep f) (i, x)).2) := by
  by_cases h2 : level.length < 2
  · have hlen : level.length = 1 := by omega
    have hi0 : i = 0 := by omega
    subst hi0
    obtain ⟨a, rfl⟩ : ∃ a, level = [a] := by
      match level, hlen with
      | [a], _ => exact ⟨a, rfl⟩
    simp at hx
    rw [buildLevels_sing f _ h2] at hp ⊢
    simp [proofAux] at hp
    subst hp
    simp [MerkleTree.root, hx]
  · rw [buildLevels_cons f level h2] at hp ⊢
    have hrne := buildLevels_ne_nil f (buildLevel f level)
    rw [List.dropLast_cons_of_ne_nil hrne] at hp
    simp only [proofAux] at hp
    set sib := if i % 2 = 0 then i + 1 else i - 1 with hsib
    cases hd : level[sib]? with
    | none => rw [hd] at hp; simp at hp
    | some d =>
      rw [hd] at hp
      cases hrec : proofAux (buildLevels f (buildLevel f level)).dropLast (i / 2) with
      | none => rw [hrec] at hp; simp at hp
      | some p' =>
        rw [hrec] at hp
        simp at hp
        subst hp
        have hdlt : sib < level.length := (List.getElem?_eq_some.mp hd).1
        have hparent : (buildLevel f level)[i / 2]? =
            some (verifyStep f (i, x) d).2 := by
          by_cases hpar : i % 2 = 0
          · have e1 : 2 * (i / 2) = i := by omega
            have e2 : 2 * (i / 2) + 1 = i + 1 := by omega
            have hsd : level[2 * (i / 2) + 1]? = some d := by
              rw [e2]; rw [hsib] at hd; simpa [hpar] using hd
            have hsx : level[2 * (i / 2)]? = some x := by rw [e1]; exact hx
            rw [buildLevel_get_pair f level (i / 2) x d hsx hsd]
            simp [verifyStep, hpar]
          · have hodd : i % 2 = 1 := by omega
            have hi1 : 1 ≤ i := by omega
            have e1 : 2 * (i / 2) = i - 1 := by omega
            have e2 : 2 * (i / 2) + 1 = i := by omega
            have hsd : level[2 * (i / 2)]? = some d := by
              rw [e1]; rw [hsib] at hd; simpa [hpar] using hd
            have hsx : level[2 * (i / 2) + 1]? = some x := by rw [e2]; exact hx
            rw [buildLevel_get_pair f level (i / 2) d x hsd hsx]
            simp [verifyStep, hpar]
        have hjlt : i / 2 < (buildLevel f level).length := by
          rw [buildLevel_length]
          omega
        have ih := proofAux_root f (buildLevel f level) (i / 2) hjlt p' hrec
          ((verifyStep f (i, x) d).2) hparent
        rw [List.foldl_cons]
        have hroot_cons : (MerkleTree.mk (level :: buildLevels f (buildLevel f level))).root =
            (MerkleTree.mk (buildLevels f (buildLevel f level))).root := by
          obtain ⟨hd, tl, heq⟩ := List.exists_cons_of_ne_nil hrne
          rw [heq]
          simp [MerkleTree.root, List.getLast?_cons_cons]
        rw [hroot_cons, ih]
        have : verifyStep f (i, x) d = (i / 2, (verifyStep f (i, x) d).2) := by
          simp [verifyStep]
          split <;> simp
        rw [this]
termination_by level.length
decreasing_by
  simp [buildLevel_length]
  omega

/-- The sibling index the proof walk computes at level `k` for a leaf at
index `i`: the running index there is `i / 2^k`, and the sibling is the
next index if it is even, the previous one if it is odd. -/
def sibIdx (i k : Nat) : Nat :=
  if (i / 2 ^ k) % 2 = 0 then i / 2 ^ k + 1 else i / 2 ^ k - 1

theorem sibIdx_succ (i k : Nat) : sibIdx i (k + 1) = sibIdx (i / 2) k := by
  have e : i / 2 ^ (k + 1) = i / 2 / 2 ^ k := by
    rw [Nat.div_div_eq_div_mul]
    ring_nf
  simp only [sibIdx, e]

/-- The proof walk panics exactly when some level it visits has its
computed sibling index out of that level's range. -/
theorem proofAux_none_iff :
    ∀ (ls : List (List Bytes)) (i : Nat), proofAux ls i = none ↔
      ∃ k lk, ls[k]? = some lk ∧ lk.length ≤ sibIdx i k
  | [], i => by simp [proofAux]
  | level :: rest, i => by
    have hs0 : sibIdx i 0 = if i % 2 = 0 then i + 1 else i - 1 := by
      simp [sibIdx]
    constructor
    · intro hp
      simp only [proofAux] at hp
      cases hd : level[(if i % 2 = 0 then i + 1 else i - 1)]? with
      | none =>
        refine ⟨0, level, by simp, ?_⟩
        rw [hs0]
        exact List.getElem?_eq_none_iff.mp hd
      | some d =>
        rw [hd] at hp
        cases hrec : proofAux rest (i / 2) with
        | none =>
          obtain ⟨k, lk, hk, hlen⟩ := (proofAux_none_iff rest (i / 2)).mp hrec
          exact ⟨k + 1, lk, by simpa using hk, by rwa [sibIdx_succ]⟩
        | some p' => rw [hrec] at hp; simp at hp
    · rintro ⟨k, lk, hk, hlen⟩
      simp only [proofAux]
      cases k with
      | zero =>
        simp at hk
        subst hk
        rw [hs0] at hlen
        rw [List.getElem?_eq_none_iff.mpr hlen]
      | succ k =>
        cases hd : level[(if i % 2 = 0 then i + 1 else i - 1)]? with
        | none => rfl
        | some d =>
          have : proofAux rest (i / 2) = none :=
            (proofAux_none_iff rest (i / 2)).mpr
              ⟨k, lk, by simpa using hk, by rwa [sibIdx_succ] at hlen⟩
          rw [this]
          rfl

/-- Consecutive levels of a built tree are related by `buildLevel`. -/
theorem buildLevels_chain (f : Bytes → Bytes) (level : List Bytes) :
    ∀ (k : Nat) (lk lk1 : List Bytes), (buildLevels f level)[k]? = some lk →
      (buildLevels f level)[k + 1]? = some lk1 → lk1 = buildLevel f lk := by
  intro k lk lk1 hk hk1
  by_cases h2 : level.length < 2
  · rw [buildLevels_sing f level h2] at hk1
    rw [List.getElem?_eq_some] at hk1
    obtain ⟨hlt, _⟩ := hk1
    simp at hlt
  · rw [buildLevels_cons f level h2] at hk hk1
    cases k with
    | zero =>
      simp at hk
      subst hk
      rw [List.getElem?_cons_succ] at hk1
      have := buildLevels_head f (buildLevel f level)
      obtain ⟨hd, tl, heq⟩ :=
        List.exists_cons_of_ne_nil (buildLevels_ne_nil f (buildLevel f level))
      rw [heq] at hk1 this
      simp at hk1 this
      rw [hk1] at this
      exact this
    | succ k =>
      rw [List.getElem?_cons_succ] at hk hk1
      exact buildLevels_chain f (buildLevel f level) k lk lk1 hk hk1
termination_by level.length
decreasing_by
  simp [buildLevel_length]
  omega

/-- The last built level is a singleton: the root digest alone. -/
theorem buildLevels_getLast (f : Bytes → Bytes) (level : List Bytes)
    (hne : level ≠ []) :
    ∃ r, (buildLevels f level).getLast? = some [r] := by
  by_cases h2 : level.length < 2
  · have hlen : level.length = 1 := by
      have := List.length_pos.mpr hne
      omega
    obtain ⟨a, rfl⟩ : ∃ a, level = [a] := by
      match level, hlen with
      | [a], _ => exact ⟨a, rfl⟩
    exact ⟨a, by rw [buildLevels_sing f _ h2]; rfl⟩
  · rw [buildLevels_cons f level h2]
    have hne' : buildLevel f level ≠ [] := by
      have := buildLevel_length f level
      intro hc
      rw [hc] at this
      simp at this
      omega
    obtain ⟨r, hr⟩ := buildLevels_getLast f (buildLevel f level) hne'
    refine ⟨r, ?_⟩
    obtain ⟨hd, tl, heq⟩ :=
      List.exists_cons_of_ne_nil (buildLevels_ne_nil f (buildLevel f level))
    rw [heq] at hr ⊢
    rw [List.getLast?_cons_cons]
    exact hr
termination_by level.length
decreasing_by
  simp [buildLevel_length]
  omega

/-- Every level other than the last has at least two digests: construction
only stops once a level holds exactly one digest. -/
theorem buildLevels_min2 (f : Bytes → Bytes) (level : List Bytes) :
    ∀ (k : Nat) (lk : List Bytes), k + 1 < (buildLevels f level).length →
      (buildLevels f level)[k]? = some lk → 2 ≤ lk.length := by
  intro k lk hklt hk
  by_cases h2 : level.length < 2
  · rw [buildLevels_sing f level h2] at hklt
    simp at hklt
  · rw [buildLevels_cons f level h2] at hklt hk
    cases k with
    | zero =>
      simp at hk
      subst hk
      omega
    | succ k =>
      rw [List.getElem?_cons_succ] at hk
      simp at hklt
      exact buildLevels_min2 f (buildLevel f level) k lk (by omega) hk
termination_by level.length
decreasing_by
  simp [buildLevel_length]
  omega

theorem buildLevels_zero (f : Bytes → Bytes) (level : List Bytes) :
    (buildLevels f level)[0]? = some level := by
  obtain ⟨hd, tl, heq⟩ := List.exists_cons_of_ne_nil (buildLevels_ne_nil f level)
  have := buildLevels_head f level
  rw [heq] at this ⊢
  simpa using this

/-- Unfolding `MerkleTree::new` on a non-empty input. -/
theorem new_ok_iff (f : Bytes → Bytes) (data : List Bytes) (t : MerkleTree) :
    MerkleTree.new f data = .ok t ↔
      data ≠ [] ∧ t.levels = buildLevels f (data.map f) := by
  constructor
  · intro h
    unfold MerkleTree.new at h
    split at h
    · simp at h
    · next hne =>
      simp at h
      subst h
      exact ⟨by simpa [List.isEmpty_iff] using hne, rfl⟩
  · rintro ⟨hne, hlv⟩
    unfold MerkleTree.new
    rw [if_neg (by simpa [List.isEmpty_iff] using hne)]
    cases t
    simp at hlv
    rw [hlv]

/-- Unfolding `MerkleTree::proof` once the level list is in cons form. -/
theorem proof_eq_of_cons (t : MerkleTree) (l0 : List Bytes)
    (tl : List (List Bytes)) (h : t.levels = l0 :: tl) (i : Nat) :
    t.proof i = if l0.length ≤ i then some (.error .InvalidIndex)
      else (proofAux t.levels.dropLast i).map .ok := by
  cases t with
  | mk ls =>
    simp at h
    subst h
    rfl

end Merkle

namespace Wire

/-- `usize::to_be_bytes` / `u64::to_be_bytes` on a 64-bit platform: the
eight big-endian bytes of the value. -/
def toBe8 (n : Nat) : Bytes :=
  [n / 256 ^ 7 % 256, n / 256 ^ 6 % 256, n / 256 ^ 5 % 256, n / 256 ^ 4 % 256,
   n / 256 ^ 3 % 256, n / 256 ^ 2 % 256, n / 256 % 256, n % 256]

/-- Big-endian interpretation of a byte string
(`u64::from_be_bytes`, `read_u64`). -/
def fromBe (l : Bytes) : Nat :=
  l.foldl (fun a b => a * 256 + b) 0

/-- `read_exact n`: take exactly `n` bytes off the stream, failing on a
short stream. -/
def readExact (n : Nat) (s : Bytes) : Option (Bytes × Bytes) :=
  if n ≤ s.length then some (s.take n, s.drop n) else none

/-- The ASCII bytes of `"upload"`. -/
def uploadCmdBytes : Bytes := [117, 112, 108, 111, 97, 100]

/-- The ASCII bytes of `"download"`. -/
def downloadCmdBytes : Bytes := [100, 111, 119, 110, 108, 111, 97, 100]

/-- The 10-byte tag `b"upload\x00\x00\x00\x00"` the client writes. -/
def uploadTagBytes : Bytes := uploadCmdBytes ++ [0, 0, 0, 0]

/-- `client.rs` `TcpClient::send_files`: the full byte stream written for an
upload — the 10-byte tag, the big-endian file count, then each file's
big-endian length followed by its bytes. -/
def sendFilesBytes (files : List Bytes) : Bytes :=
  uploadTagBytes ++ toBe8 files.length ++
    (files.map (fun file => toBe8 file.length ++ file)).flatten

/-- `stream.read_u64()`: read eight bytes big-endian. -/
def readU64 (s : Bytes) : Option (Nat × Bytes) :=
  (readExact 8 s).map (fun p => (fromBe p.1, p.2))

/-- The loop of `Server::handle_upload`: read `n` length-prefixed files. -/
def readNFiles : Nat → Bytes → Option (List Bytes × Bytes)
  | 0, s => some ([], s)
  | n + 1, s =>
    match readU64 s with
    | none => none
    | some (size, s1) =>
      match readExact size s1 with
      | none => none
      | some (file, s2) =>
        (readNFiles n s2).map (fun p => (file :: p.1, p.2))

/-- `server.rs` `Server::handle_upload`: read the file count, then that many
length-prefixed files; returns the files and the unconsumed stream. -/
def handleUpload (s : Bytes) : Option (List Bytes × Bytes) :=
  match readU64 s with
  | none => none
  | some (n, s1) => readNFiles n s1

/-- `str::trim_end_matches(char::from(0))`: drop all trailing NUL bytes. -/
def dropTrailingZeros (l : Bytes) : Bytes :=
  (l.reverse.dropWhile (fun b => b = 0)).reverse

end Wire

namespace Store

open Merkle

/-- `hex::encode` digit for a nibble: `'0'..'9'` then `'a'..'f'`. -/
def hexDigitChar (n : Nat) : Char :=
  if n < 10 then Char.ofNat (48 + n) else Char.ofNat (87 + n)

/-- `hex::encode`: lower-case hex, two digits per byte, in order. -/
def hexEncode (bytes : Bytes) : String :=
  ⟨(bytes.map (fun b => [hexDigitChar (b / 16), hexDigitChar (b % 16)])).flatten⟩

/-- The error paths of `FileStore::store_files` that are visible in the
pure model: a `MerkleTreeError` propagated by `?`, or the
`"Root Hash could not be computed"` case when `root()` is `None`. -/
inductive StoreError where
  | tree (e : MerkleTreeError)
  | noRoot
deriving DecidableEq, Repr

/-- `store.rs` `FileStore::store_files`, with the filesystem modelled as the
list of (file name, contents) pairs written inside the directory named by
the returned hex root. Serialization of the tree (`serde_json`) is kept as
a parameter `serialize`, exactly as the hash function is a parameter of the
tree. Writes happen in code order: each block under its decimal index,
then the `tree.json` sidecar. -/
def storeFiles (f : Bytes → Bytes) (serialize : MerkleTree → Bytes)
    (files : List Bytes) : Except StoreError (String × List (String × Bytes)) :=
  match MerkleTree.new f files with
  | .error e => .error (.tree e)
  | .ok tree =>
    match tree.root with
    | none => .error .noRoot
    | some r =>
      .ok (hexEncode r,
        files.enum.map (fun p => (toString p.1, p.2)) ++
          [("tree.json", serialize tree)])

end Store

namespace Server

open Merkle Wire Store

/-- The branch taken by `Server::handle_client` after reading and trimming
the command tag. `upload` records the parsed batch and the hex root the
store computed; `download` records the unconsumed stream handed to
`handle_download` (whose body only touches the on-disk store and is needed
by no claim); `unknownCommand` is the `_` branch, which prints
`"Unknown command"` and falls through to `Ok(())`. -/
inductive ServerAction where
  | upload (files : List Bytes) (hexRoot : String)
  | download (rest : Bytes)
  | unknownCommand
deriving DecidableEq, Repr

/-- `server.rs` `Server::handle_client`: read up to 10 bytes into a
zero-initialised buffer, decode as UTF-8 (modelled for ASCII bytes; the
two command comparisons only ever succeed on ASCII), trim trailing NULs
and dispatch. `none` is any error path (UTF-8 failure, short upload frame,
store failure). -/
def handleClient (f : Bytes → Bytes) (serialize : MerkleTree → Bytes)
    (s : Bytes) : Option ServerAction :=
  let buf := s.take 10 ++ List.replicate (10 - (s.take 10).length) 0
  let rest := s.drop 10
  if buf.all (fun b => b < 128) then
    let cmd := dropTrailingZeros buf
    if cmd = uploadCmdBytes then
      match handleUpload rest with
      | none => none
      | some (files, _) =>
        match storeFiles f serialize files with
        | .error _ => none
        | .ok (root, _) => some (.upload files root)
    else if cmd = downloadCmdBytes then some (.download rest)
    else some .unknownCommand
  else none

end Server

namespace Client

open Merkle Wire

/-- A single hex digit's value, as `hex::decode` accepts it
(`0-9`, `a-f`, `A-F`). -/
def hexDigitVal (c : Char) : Option Nat :=
  if '0' ≤ c ∧ c ≤ '9' then some (c.toNat - 48)
  else if 'a' ≤ c ∧ c ≤ 'f' then some (c.toNat - 87)
  else if 'A' ≤ c ∧ c ≤ 'F' then some (c.toNat - 55)
  else none

/-- `hex::decode`: fails on an odd-length string or a non-hex character. -/
def hexDecode : List Char → Option Bytes
  | [] => some []
  | [_] => none
  | c1 :: c2 :: rest =>
    match hexDigitVal c1, hexDigitVal c2, hexDecode rest with
    | some h, some l, some r => some ((16 * h + l) :: r)
    | _, _, _ => none

/-- `chunks_exact(32)` with explicit fuel (so the function is structurally
recursive and kernel-computable); `chunksExact32` instantiates the fuel
with the input length, which `chunksExact32Fuel_stable` proves
sufficient. -/
def chunksExact32Fuel : Nat → Bytes → List Bytes
  | 0, _ => []
  | fuel + 1, l =>
    if 32 ≤ l.length then l.take 32 :: chunksExact32Fuel fuel (l.drop 32)
    else []

theorem chunksExact32Fuel_small (l : Bytes) (h : ¬ 32 ≤ l.length) :
    ∀ fuel, chunksExact32Fuel fuel l = [] := by
  intro fuel
  cases fuel <;> simp [chunksExact32Fuel, h]

theorem chunksExact32Fuel_stable (l : Bytes) :
    ∀ (fuel fuel' : Nat), l.length ≤ fuel + 31 → l.length ≤ fuel' + 31 →
      chunksExact32Fuel fuel l = chunksExact32Fuel fuel' l := by
  intro fuel fuel' hf hf'
  by_cases h32 : 32 ≤ l.length
  · obtain ⟨g, rfl⟩ : ∃ g, fuel = g + 1 := ⟨fuel - 1, by omega⟩
    obtain ⟨g', rfl⟩ : ∃ g', fuel' = g' + 1 := ⟨fuel' - 1, by omega⟩
    simp only [chunksExact32Fuel, if_pos h32]
    have hd : (l.drop 32).length = l.length - 32 := by simp
    exact congrArg _ (chunksExact32Fuel_stable (l.drop 32) g g'
      (by omega) (by omega))
  · rw [chunksExact32Fuel_small l h32, chunksExact32Fuel_small l h32]
termination_by l.length
decreasing_by
  simp
  omega

/-- `chunks_exact(32)`: full 32-byte chunks in order, the remainder
silently dropped. -/
def chunksExact32 (l : Bytes) : List Bytes :=
  chunksExact32Fuel l.length l

/-- `client.rs` `TcpClient::get_file`, as a function of the server's
response byte stream: read the 8-byte big-endian file size, the file, hex
decode the root hash (it must decode to exactly 32 bytes), chunk the rest
of the stream into 32-byte proof digests, and accept the file only if
`MerkleTree::verify` succeeds. -/
def getFile (f : Bytes → Bytes) (rootHash : List Char) (index : Nat)
    (response : Bytes) : Except String Bytes :=
  match readExact 8 response with
  | none => .error "short read: file size"
  | some (sizeBytes, r1) =>
    match readExact (fromBe sizeBytes) r1 with
    | none => .error "short read: file"
    | some (file, r2) =>
      match hexDecode rootHash with
      | none => .error "invalid hex"
      | some rootBytes =>
        if rootBytes.length = 32 then
          if MerkleTree.verify f index file rootBytes (chunksExact32 r2) then
            .ok file
          else .error "Invalid proof"
        else .error "Invalid hash length"

/-- `main.rs` `download`, past the index lookup: call `get_file`; on error,
propagate it having written nothing; on success, write the file under the
requested name. The result lists the (file name, contents) writes into the
client's destination directory. -/
def download (f : Bytes → Bytes) (rootHash : List Char) (filename : String)
    (index : Nat) (response : Bytes) :
    Except String (List (String × Bytes)) :=
  match getFile f rootHash index response with
  | .error e => .error e
  | .ok file => .ok [(filename, file)]

end Client

namespace Db

/-- `serde_json::to_writer_pretty` output for an empty map: the two bytes
of `"\x7b\x7d"` (open and close brace). -/
def emptyMapJson : Bytes := [123, 125]

/-- The contents of `<db_path>/<db>` right after `Db::new`. When the
directory does not exist, `File::create` truncates: the file is empty.
When it exists, the file is opened with `create(true).write(true)` and NO
truncation, and the empty map's JSON is written from position 0 — bytes of
any previous contents beyond the written prefix survive. -/
def dbNewContents (dirExists : Bool) (oldContents : Bytes) : Bytes :=
  if dirExists then emptyMapJson ++ oldContents.drop emptyMapJson.length
  else []

/-- `db.rs`: the in-memory state of `Db`, an association list standing for
the `HashMap<String, Vec<String>>`. -/
structure DbState where
  uploads : List (String × List String)
deriving DecidableEq, Repr

/-- `db.rs` `Db::new`, as a function of the pre-existing disk state (does
the store directory exist, and what did the JSON index file contain):
returns the constructed in-memory state together with the resulting file
contents. The uploads map is `HashMap::new()` in both branches — the
function never reads `oldContents`, only (over)writes the file. -/
def dbNew (dirExists : Bool) (oldContents : Bytes) : DbState × Bytes :=
  (⟨[]⟩, dbNewContents dirExists oldContents)

/-- `Db::get_uploads`. -/
def getUploads (db : DbState) : List (String × List String) := db.uploads

/-- `Db::get_index`: `uploads.get(root_hash)` then
`files.iter().position(|f| f == file_name)`. -/
def getIndex (db : DbState) (rootHash fileName : String) : Option Nat :=
  (db.uploads.lookup rootHash).bind
    (fun files => files.findIdx? (fun f => f = fileName))

end Db

/-! ## Test fixtures

Concrete, kernel-computable instantiations of the hash and serialization
parameters, used to evaluate the embedded functions on concrete inputs. -/

deriving instance DecidableEq for Except

/-- A small executable digest function standing in for a `Hasher`
instance. -/
def testHash (l : Bytes) : Bytes :=
  (l.foldl (fun a b => a * 37 + b + 1) 5) % 251 :: l.take 2

/-- A constant 32-byte digest function, convenient for exercising the
client's fixed-width digest handling. -/
def zeroHash (_l : Bytes) : Bytes := List.replicate 32 0

/-- A small executable stand-in for the `serde_json` tree serialization
parameter. -/
def testSerialize (t : Merkle.MerkleTree) : Bytes := t.levels.flatten.flatten

/-- The three-block batch of the spec's concrete scenario. -/
def batch3 : List Bytes := [[1], [2], [3]]

/-- The level structure `MerkleTree::new` builds over `batch3` with
`testHash`. -/
def tree3 : Merkle.MerkleTree :=
  ⟨Merkle.buildLevels testHash (batch3.map testHash)⟩

/-! ## Claims -/

/-- C1, counterexample: the claim quantifies over every valid leaf index,
but on the 3-leaf tree the path of leaf 2 reaches the promoted solo node,
`proof(2)` reads `level[3]` of a 3-entry level and panics, so no proof for
index 2 exists at all, let alone one that verifies. -/
theorem c1_counterexample :
    ¬ (∀ (f : Bytes → Bytes) (data : List Bytes) (t : Merkle.MerkleTree)
        (i : Nat), Merkle.MerkleTree.new f data = .ok t → i < data.length →
        ∃ p r, t.proof i = some (.ok p) ∧ t.root = some r ∧
          Merkle.MerkleTree.verify f i (data.getD i []) r p = true) := by
  intro h
  obtain ⟨p, r, hp, -, -⟩ := h testHash batch3 tree3 2 rfl (by decide)
  rw [show tree3.proof 2 = none from by decide] at hp
  exact Option.noConfusion hp

/-- C1 (amended): for every tree built from a non-empty list of blocks and
every leaf index whose proof generation returns `Ok` (i.e. does not hit
the missing-sibling panic at a promoted solo node),
`verify(i, blocks[i], root, proof(i))` returns `true`. -/
theorem c1_verify_of_proof_ok (f : Bytes → Bytes) (data : List Bytes)
    (t : Merkle.MerkleTree) (i : Nat) (p : List Bytes) (blk r : Bytes)
    (ht : Merkle.MerkleTree.new f data = .ok t)
    (hp : t.proof i = some (.ok p))
    (hblk : data[i]? = some blk)
    (hr : t.root = some r) :
    Merkle.MerkleTree.verify f i blk r p = true := by
  obtain ⟨hne, hlv⟩ := (Merkle.new_ok_iff f data t).mp ht
  have hlne : t.levels ≠ [] := by
    rw [hlv]
    exact Merkle.buildLevels_ne_nil f (data.map f)
  obtain ⟨l0, tl, hcons⟩ := List.exists_cons_of_ne_nil hlne
  have hl0 : l0 = data.map f := by
    have h0 := Merkle.buildLevels_zero f (data.map f)
    rw [← hlv, hcons] at h0
    simpa using h0
  rw [Merkle.proof_eq_of_cons t l0 tl hcons i] at hp
  by_cases hidx : l0.length ≤ i
  · rw [if_pos hidx] at hp
    simp at hp
  · rw [if_neg hidx] at hp
    have hi : i < data.length := by
      rw [hl0] at hidx
      simp at hidx
      omega
    obtain ⟨q, hq, hqp⟩ := Option.map_eq_some'.mp hp
    have hqp' : q = p := by
      simpa using hqp
    subst hqp'
    have hleaf : (data.map f)[i]? = some (f blk) := by
      rw [List.getElem?_map, hblk]
      rfl
    have hq' : Merkle.proofAux ((Merkle.buildLevels f (data.map f)).dropLast) i
        = some q := by
      rw [← hlv]
      exact hq
    have hroot := Merkle.proofAux_root f (data.map f) i (by simpa using hi) q
      hq' (f blk) hleaf
    rw [← hlv] at hroot
    have hroot' : t.root = some ((q.foldl (Merkle.verifyStep f) (i, f blk)).2) := by
      cases t
      exact hroot
    rw [hr] at hroot'
    have hr' : r = (q.foldl (Merkle.verifyStep f) (i, f blk)).2 := by
      simpa using hroot'
    simp [Merkle.MerkleTree.verify, hr']

/-- C1, witness: on the 4-leaf batch `[[1],[2],[3],[4]]` with `testHash`,
the tree's own proof for index 1 verifies block `[2]` against the tree's
root. -/
theorem c1_witness :
    Merkle.MerkleTree.verify testHash 1 [2] [122, 242, 187]
      [[187, 1], [197, 189, 3]] = true :=
  c1_verify_of_proof_ok testHash [[1], [2], [3], [4]]
    ⟨Merkle.buildLevels testHash ([[1], [2], [3], [4]].map testHash)⟩ 1
    [[187, 1], [197, 189, 3]] [2] [122, 242, 187] rfl (by decide) (by decide)
    (by decide)

/-- Indexing into `dropLast` in terms of the original list. -/
theorem getElem?_dropLast_iff (ls : List (List Bytes)) (k : Nat)
    (lk : List Bytes) :
    ls.dropLast[k]? = some lk ↔ (k + 1 < ls.length ∧ ls[k]? = some lk) := by
  rw [List.dropLast_eq_take]
  constructor
  · intro h
    have hk : k < (ls.take (ls.length - 1)).length :=
      (List.getElem?_eq_some.mp h).1
    simp [List.length_take] at hk
    have hk' : k < ls.length - 1 := by omega
    exact ⟨by omega, by rwa [List.getElem?_take_of_lt hk'] at h⟩
  · rintro ⟨hk, h⟩
    rwa [List.getElem?_take_of_lt (by omega : k < ls.length - 1)]

/-- C2, counterexample: `proof` does not always succeed on a valid index —
on the 3-leaf tree, the path of leaf 2 computes sibling index 3 at level 0
(a 3-entry level) and the unchecked `level[sibling_index]` access panics,
instead of the level contributing no sibling as the claim states. -/
theorem c2_counterexample :
    ¬ (∀ (f : Bytes → Bytes) (data : List Bytes) (t : Merkle.MerkleTree)
        (i : Nat), Merkle.MerkleTree.new f data = .ok t → i < data.length →
        ∃ p, t.proof i = some (.ok p)) := by
  intro h
  obtain ⟨p, hp⟩ := h testHash batch3 tree3 2 rfl (by decide)
  rw [show tree3.proof 2 = none from by decide] at hp
  exact Option.noConfusion hp

/-- C2 (amended): for a tree built from `n` blocks and a valid index
`i < n`, `proof(i)` never returns the `InvalidIndex` error, but it does not
always succeed either: the sibling digest is read with no bounds check, and
`proof(i)` panics (index out of bounds) exactly when some level below the
root has its computed sibling index `i/2^k + 1` (even) / `i/2^k - 1` (odd)
outside that level's length — the promoted-solo-node geometry — rather
than skipping that level. -/
theorem c2_proof_panic_iff (f : Bytes → Bytes) (data : List Bytes)
    (t : Merkle.MerkleTree) (i : Nat)
    (ht : Merkle.MerkleTree.new f data = .ok t) (hi : i < data.length) :
    (∀ e, t.proof i ≠ some (.error e)) ∧
    (t.proof i = none ↔
      ∃ k lk, k + 1 < t.levels.length ∧ t.levels[k]? = some lk ∧
        lk.length ≤ Merkle.sibIdx i k) := by
  obtain ⟨hne, hlv⟩ := (Merkle.new_ok_iff f data t).mp ht
  have hlne : t.levels ≠ [] := by
    rw [hlv]
    exact Merkle.buildLevels_ne_nil f (data.map f)
  obtain ⟨l0, tl, hcons⟩ := List.exists_cons_of_ne_nil hlne
  have hl0 : l0 = data.map f := by
    have h0 := Merkle.buildLevels_zero f (data.map f)
    rw [← hlv, hcons] at h0
    simpa using h0
  have hidx : ¬ l0.length ≤ i := by
    rw [hl0]
    simp
    omega
  rw [Merkle.proof_eq_of_cons t l0 tl hcons i, if_neg hidx]
  constructor
  · intro e hc
    obtain ⟨q, -, hq⟩ := Option.map_eq_some'.mp hc
    exact Except.noConfusion hq
  · rw [Option.map_eq_none']
    rw [Merkle.proofAux_none_iff (t.levels.dropLast) i]
    constructor
    · rintro ⟨k, lk, hk, hlen⟩
      obtain ⟨hklt, hk'⟩ := (getElem?_dropLast_iff t.levels k lk).mp hk
      exact ⟨k, lk, hklt, hk', hlen⟩
    · rintro ⟨k, lk, hklt, hk, hlen⟩
      exact ⟨k, lk, (getElem?_dropLast_iff t.levels k lk).mpr ⟨hklt, hk⟩, hlen⟩

/-- C2, witness: the amended characterization instantiated on the 3-leaf
tree at the valid index 2 (the index whose path panics). -/
theorem c2_witness :
    (∀ e, tree3.proof 2 ≠ some (.error e)) ∧
    (tree3.proof 2 = none ↔
      ∃ k lk, k + 1 < tree3.levels.length ∧ tree3.levels[k]? = some lk ∧
        lk.length ≤ Merkle.sibIdx 2 k) :=
  c2_proof_panic_iff testHash batch3 tree3 2 rfl (by decide)

/-- C3 (confirmed): during construction a full pair `(left, right)`
produces `hash(left ++ right)` and a trailing solo node of an odd-length
level is re-hashed alone (`hash(node)`), not paired with itself; on the
concrete batch `[[1,2,3],[4,5,6],[7,8,9]]` level 1 has exactly two
entries, the second being `hash(hash([7,8,9]))`, and the root level is
`[hash(level1[0] ++ level1[1])]`, for every hash function `f`. -/
theorem c3_level_construction (f : Bytes → Bytes) :
    (∀ (x y : Bytes) (rest : List Bytes),
      Merkle.buildLevel f (x :: y :: rest) =
        Merkle.hashNodes f x y :: Merkle.buildLevel f rest) ∧
    (∀ x : Bytes, Merkle.buildLevel f [x] = [f x]) ∧
    Merkle.MerkleTree.new f [[1, 2, 3], [4, 5, 6], [7, 8, 9]] =
      .ok ⟨[[f [1, 2, 3], f [4, 5, 6], f [7, 8, 9]],
            [f (f [1, 2, 3] ++ f [4, 5, 6]), f (f [7, 8, 9])],
            [f (f (f [1, 2, 3] ++ f [4, 5, 6]) ++ f (f [7, 8, 9]))]]⟩ :=
  ⟨fun _ _ _ => rfl, fun _ => rfl, rfl⟩

/-- C6 (confirmed): building from the empty block list fails with the
empty-input error (`MerkleTreeError::EmptyData`, the spec taxonomy's
`EmptyInput`), and on a tree of `len` leaves every `proof(i)` with
`i ≥ len` fails with `InvalidIndex`. -/
theorem c6_empty_and_invalid_index (f : Bytes → Bytes) (data : List Bytes)
    (t : Merkle.MerkleTree) (i : Nat)
    (ht : Merkle.MerkleTree.new f data = .ok t)
    (hi : data.length ≤ i) :
    Merkle.MerkleTree.new f [] = .error .EmptyData ∧
    t.proof i = some (.error .InvalidIndex) := by
  refine ⟨rfl, ?_⟩
  obtain ⟨hne, hlv⟩ := (Merkle.new_ok_iff f data t).mp ht
  have hlne : t.levels ≠ [] := by
    rw [hlv]
    exact Merkle.buildLevels_ne_nil f (data.map f)
  obtain ⟨l0, tl, hcons⟩ := List.exists_cons_of_ne_nil hlne
  have hl0 : l0 = data.map f := by
    have h0 := Merkle.buildLevels_zero f (data.map f)
    rw [← hlv, hcons] at h0
    simpa using h0
  rw [Merkle.proof_eq_of_cons t l0 tl hcons i, if_pos (by rw [hl0]; simpa)]

/-- C6, witness: on the 3-leaf tree, `proof(3)` (one past the last leaf)
is `Err(InvalidIndex)`, and building from `[]` is `Err(EmptyData)`. -/
theorem c6_witness :
    Merkle.MerkleTree.new testHash [] = .error .EmptyData ∧
    tree3.proof 3 = some (.error .InvalidIndex) :=
  c6_empty_and_invalid_index testHash batch3 tree3 3 rfl (by decide)

/-- C7 (confirmed): the level-shape invariant of every tree built from
`n ≥ 1` blocks. Level 0 is the hashed input blocks in input order (hence
has one digest per block); whenever levels `k` and `k+1` both exist, the
latter's length is `ceil(levels[k].len / 2) = (levels[k].len + 1) / 2`;
every level other than the last has at least two digests (construction
stops exactly when a level has one digest); the last level is a singleton
`[r]` and `root()` returns `r`. Only the success of `new` is assumed, so
the statement covers the single-leaf tree (where the per-level conjuncts
hold vacuously and the leaf level is itself the root level). The tree is
a pure value in this model — no operation mutates it. -/
theorem c7_level_shape (f : Bytes → Bytes) (data : List Bytes)
    (t : Merkle.MerkleTree)
    (ht : Merkle.MerkleTree.new f data = .ok t) :
    t.levels[0]? = some (data.map f) ∧
    (data.map f).length = data.length ∧
    (∀ (k : Nat) (lk lk1 : List Bytes), t.levels[k]? = some lk →
      t.levels[k + 1]? = some lk1 → lk1.length = (lk.length + 1) / 2) ∧
    (∀ (k : Nat) (lk : List Bytes), k + 1 < t.levels.length →
      t.levels[k]? = some lk → 2 ≤ lk.length) ∧
    (∃ r, t.levels.getLast? = some [r] ∧ t.root = some r) := by
  obtain ⟨hne, hlv⟩ := (Merkle.new_ok_iff f data t).mp ht
  rw [hlv]
  refine ⟨Merkle.buildLevels_zero f (data.map f), by simp, ?_, ?_, ?_⟩
  · intro k lk lk1 hk hk1
    rw [Merkle.buildLevels_chain f (data.map f) k lk lk1 hk hk1]
    exact Merkle.buildLevel_length f lk
  · intro k lk hklt hk
    exact Merkle.buildLevels_min2 f (data.map f) k lk hklt hk
  · obtain ⟨r, hr⟩ := Merkle.buildLevels_getLast f (data.map f)
      (by simpa using hne)
    exact ⟨r, hr, by simp [Merkle.MerkleTree.root, hlv, hr]⟩

/-- C7, witness: the shape invariant instantiated on the 3-leaf tree
(levels of lengths 3, 2, 1). -/
theorem c7_witness :
    tree3.levels[0]? = some (batch3.map testHash) ∧
    (batch3.map testHash).length = batch3.length ∧
    (∀ (k : Nat) (lk lk1 : List Bytes), tree3.levels[k]? = some lk →
      tree3.levels[k + 1]? = some lk1 → lk1.length = (lk.length + 1) / 2) ∧
    (∀ (k : Nat) (lk : List Bytes), k + 1 < tree3.levels.length →
      tree3.levels[k]? = some lk → 2 ≤ lk.length) ∧
    (∃ r, tree3.levels.getLast? = some [r] ∧ tree3.root = some r) :=
  c7_level_shape testHash batch3 tree3 rfl

/-- Big-endian round trip for the 8-byte fixed width used on the wire. -/
theorem fromBe_toBe8 (n : Nat) (h : n < 2 ^ 64) :
    Wire.fromBe (Wire.toBe8 n) = n := by
  simp [Wire.toBe8, Wire.fromBe]
  omega

theorem toBe8_length (n : Nat) : (Wire.toBe8 n).length = 8 := rfl

/-- Reading a `u64` off a stream that starts with an encoded value. -/
theorem readU64_toBe8 (n : Nat) (h : n < 2 ^ 64) (rest : Bytes) :
    Wire.readU64 (Wire.toBe8 n ++ rest) = some (n, rest) := by
  have hlen : (8 : Nat) ≤ (Wire.toBe8 n ++ rest).length := by
    simp [toBe8_length]
  simp only [Wire.readU64, Wire.readExact, if_pos hlen,
    List.take_left' (toBe8_length n), List.drop_left' (toBe8_length n)]
  simp [fromBe_toBe8 n h]

/-- The server's file-reading loop undoes the client's per-file framing. -/
theorem readNFiles_encoded (files : List Bytes)
    (hf : ∀ b ∈ files, b.length < 2 ^ 64) :
    Wire.readNFiles files.length
      ((files.map (fun file => Wire.toBe8 file.length ++ file)).flatten) =
      some (files, []) := by
  induction files with
  | nil => rfl
  | cons b bs ih =>
    have hb : b.length < 2 ^ 64 := hf b (by simp)
    simp only [List.map_cons, List.flatten_cons, List.length_cons,
      Wire.readNFiles, List.append_assoc]
    rw [readU64_toBe8 b.length hb]
    have hble : b.length ≤ (b ++ (bs.map
        (fun file => Wire.toBe8 file.length ++ file)).flatten).length := by
      simp
    simp only [Wire.readExact, if_pos hble, List.take_left' rfl,
      List.drop_left' rfl]
    rw [ih (fun x hx => hf x (by simp [hx]))]
    rfl

/-- C4 (confirmed): the byte stream `send_files` writes — the 10-byte
NUL-padded `"upload"` tag, the big-endian 8-byte file count, then each
file's big-endian 8-byte length followed by its raw bytes — dispatches to
the upload branch (the first ten bytes trim to `"upload"`) and is parsed
by `handle_upload` into exactly the original ordered file list, consuming
the stream completely. The count and length bounds are the `usize` ranges
of the 64-bit platform the code encodes them on. -/
theorem c4_upload_roundtrip (files : List Bytes)
    (hn : files.length < 2 ^ 64)
    (hf : ∀ b ∈ files, b.length < 2 ^ 64) :
    Wire.dropTrailingZeros ((Wire.sendFilesBytes files).take 10 ++
        List.replicate (10 - ((Wire.sendFilesBytes files).take 10).length) 0) =
      Wire.uploadCmdBytes ∧
    Wire.handleUpload ((Wire.sendFilesBytes files).drop 10) =
      some (files, []) := by
  have htag : (Wire.uploadTagBytes).length = 10 := rfl
  have hassoc : Wire.sendFilesBytes files = Wire.uploadTagBytes ++
      (Wire.toBe8 files.length ++
        (files.map (fun file => Wire.toBe8 file.length ++ file)).flatten) := by
    simp [Wire.sendFilesBytes, List.append_assoc]
  constructor
  · rw [hassoc, List.take_left' htag]
    decide
  · rw [hassoc, List.drop_left' htag]
    simp only [Wire.handleUpload, readU64_toBe8 files.length hn]
    exact readNFiles_encoded files hf

/-- C4, witness: the two-file batch `[[1,2],[3]]` round-trips through the
upload framing. -/
theorem c4_witness :
    Wire.dropTrailingZeros ((Wire.sendFilesBytes [[1, 2], [3]]).take 10 ++
        List.replicate
          (10 - ((Wire.sendFilesBytes [[1, 2], [3]]).take 10).length) 0) =
      Wire.uploadCmdBytes ∧
    Wire.handleUpload ((Wire.sendFilesBytes [[1, 2], [3]]).drop 10) =
      some ([[1, 2], [3]], []) :=
  c4_upload_roundtrip [[1, 2], [3]] (by decide) (by decide)

/-- The sixteen characters `hex::encode` can emit. -/
def hexLowerChars : List Char := "0123456789abcdef".toList

theorem hexDigitChar_mem (n : Nat) (h : n < 16) :
    Store.hexDigitChar n ∈ hexLowerChars := by
  interval_cases n <;> decide

/-- C8 (confirmed): for a non-empty batch, `store_files` returns the
lower-case hex encoding of the batch's Merkle root, and the writes into
the directory named by that hex string are exactly one file per block,
named by its decimal index and holding the block's bytes, plus the
`tree.json` sidecar holding the serialized tree; on the empty batch it
fails with the propagated `EmptyData` error. The last conjunct certifies
"lower-case hex": every character of the returned name is a lower-case
hex digit (given byte-valued digests). -/
theorem c8_store_layout (f : Bytes → Bytes)
    (serialize : Merkle.MerkleTree → Bytes) (files : List Bytes)
    (t : Merkle.MerkleTree) (r : Bytes) (i : Nat) (fi : Bytes) (c : Char)
    (ht : Merkle.MerkleTree.new f files = .ok t)
    (hr : t.root = some r)
    (hfi : files[i]? = some fi)
    (hb : ∀ b ∈ r, b < 256)
    (hc : c ∈ (Store.hexEncode r).data) :
    Store.storeFiles f serialize files =
      .ok (Store.hexEncode r,
        files.enum.map (fun p => (toString p.1, p.2)) ++
          [("tree.json", serialize t)]) ∧
    (toString i, fi) ∈ files.enum.map (fun p => (toString p.1, p.2)) ∧
    ("tree.json", serialize t) ∈
      files.enum.map (fun p => (toString p.1, p.2)) ++
        [("tree.json", serialize t)] ∧
    Store.storeFiles f serialize [] = .error (.tree .EmptyData) ∧
    c ∈ hexLowerChars := by
  refine ⟨?_, ?_, by simp, rfl, ?_⟩
  · simp only [Store.storeFiles, ht, hr]
  · exact List.mem_map_of_mem _ (List.mk_mem_enum_iff_getElem?.mpr hfi)
  · simp only [Store.hexEncode] at hc
    obtain ⟨cs, hcs, hcmem⟩ := List.mem_flatten.mp hc
    obtain ⟨b, hbmem, hbeq⟩ := List.mem_map.mp hcs
    have hblt := hb b hbmem
    rw [← hbeq] at hcmem
    simp at hcmem
    rcases hcmem with h1 | h2
    · rw [h1]
      exact hexDigitChar_mem _ (by omega)
    · rw [h2]
      exact hexDigitChar_mem _ (by omega)

/-- C8, witness: storing `[[1],[2]]` with `testHash` returns the hex root
`"f2bb01"` whose directory holds `0 ↦ [1]`, `1 ↦ [2]` and `tree.json`;
storing `[]` errors. -/
theorem c8_witness :
    Store.storeFiles testHash testSerialize [[1], [2]] =
      .ok (Store.hexEncode [242, 187, 1],
        [[1], [2]].enum.map (fun p => (toString p.1, p.2)) ++
          [("tree.json", testSerialize
            ⟨Merkle.buildLevels testHash ([[1], [2]].map testHash)⟩)]) ∧
    (toString 0, [1]) ∈ [[1], [2]].enum.map (fun p => (toString p.1, p.2)) ∧
    ("tree.json", testSerialize
        ⟨Merkle.buildLevels testHash ([[1], [2]].map testHash)⟩) ∈
      [[1], [2]].enum.map (fun p => (toString p.1, p.2)) ++
        [("tree.json", testSerialize
          ⟨Merkle.buildLevels testHash ([[1], [2]].map testHash)⟩)] ∧
    Store.storeFiles testHash testSerialize [] = .error (.tree .EmptyData) ∧
    'f' ∈ hexLowerChars :=
  c8_store_layout testHash testSerialize [[1], [2]]
    ⟨Merkle.buildLevels testHash ([[1], [2]].map testHash)⟩ [242, 187, 1]
    0 [1] 'f' rfl (by decide) (by decide) (by decide) (by decide)

/-- The ASCII bytes of `"delete"` padded to the 10-byte tag width: a
command tag that is neither `"upload"` nor `"download"`. -/
def deleteTagStream : Bytes := [100, 101, 108, 101, 116, 101, 0, 0, 0, 0]

/-- C9, counterexample: a malformed (unknown) command tag does NOT fail
the connection handling — `handle_client` prints `"Unknown command"` in
the `_` arm and returns `Ok(())`. On the concrete tag `"delete"` the
handler yields the success outcome `unknownCommand`, not an error
(`none`). -/
theorem c9_counterexample :
    ¬ (∀ (f : Bytes → Bytes) (serialize : Merkle.MerkleTree → Bytes)
        (s : Bytes),
        Wire.dropTrailingZeros (s.take 10 ++
            List.replicate (10 - (s.take 10).length) 0) ≠
          Wire.uploadCmdBytes →
        Wire.dropTrailingZeros (s.take 10 ++
            List.replicate (10 - (s.take 10).length) 0) ≠
          Wire.downloadCmdBytes →
        Server.handleClient f serialize s = none) := by
  intro h
  have hc := h testHash testSerialize deleteTagStream (by decide) (by decide)
  rw [show Server.handleClient testHash testSerialize deleteTagStream =
    some Server.ServerAction.unknownCommand from by decide] at hc
  exact Option.noConfusion hc

/-- C9 (amended): when the command tag read by `handle_client` — the first
ten stream bytes, zero-padded — trims to something that is neither
`"upload"` nor `"download"` (ASCII tags; the UTF-8 decode is modelled for
ASCII bytes, which covers both command words), the handler takes the `_`
match arm: it logs `"Unknown command"` and the connection handling
completes successfully (`Ok(())`), rather than failing with a protocol
error. -/
theorem c9_unknown_tag_is_ok (f : Bytes → Bytes)
    (serialize : Merkle.MerkleTree → Bytes) (s : Bytes)
    (hascii : ∀ b ∈ s.take 10 ++ List.replicate (10 - (s.take 10).length) 0,
      b < 128)
    (hu : Wire.dropTrailingZeros (s.take 10 ++
        List.replicate (10 - (s.take 10).length) 0) ≠ Wire.uploadCmdBytes)
    (hd : Wire.dropTrailingZeros (s.take 10 ++
        List.replicate (10 - (s.take 10).length) 0) ≠ Wire.downloadCmdBytes) :
    Server.handleClient f serialize s =
      some Server.ServerAction.unknownCommand := by
  have hall : (s.take 10 ++ List.replicate (10 - (s.take 10).length) 0).all
      (fun b => b < 128) = true := by
    rw [List.all_eq_true]
    intro x hx
    simpa using hascii x hx
  simp only [Server.handleClient]
  rw [if_pos hall, if_neg hu, if_neg hd]

/-- C9, witness: on the `"delete"` tag the handler returns the logged
success outcome. -/
theorem c9_witness :
    Server.handleClient testHash testSerialize deleteTagStream =
      some Server.ServerAction.unknownCommand :=
  c9_unknown_tag_is_ok testHash testSerialize deleteTagStream (by decide)
    (by decide) (by decide)

/-- C5 (confirmed): on a response stream long enough to contain the
announced file (and a root hash that hex-decodes to a 32-byte digest),
`get_file` returns `Ok(file_bytes)` exactly when `MerkleTree::verify`
accepts the file against the decoded root and the received proof chunks;
when verification fails it returns the `"Invalid proof"` error; and
whenever `get_file` errors, `download` propagates the error and performs
no write into the client's destination directory. -/
theorem c5_verification_gate (f : Bytes → Bytes) (rootHash : List Char)
    (fname : String) (index : Nat) (response : Bytes) (rootBytes : Bytes)
    (h8 : 8 ≤ response.length)
    (hsz : Wire.fromBe (response.take 8) ≤ (response.drop 8).length)
    (hhex : Client.hexDecode rootHash = some rootBytes)
    (h32 : rootBytes.length = 32) :
    (Client.getFile f rootHash index response =
        .ok ((response.drop 8).take (Wire.fromBe (response.take 8))) ↔
      Merkle.MerkleTree.verify f index
        ((response.drop 8).take (Wire.fromBe (response.take 8))) rootBytes
        (Client.chunksExact32
          ((response.drop 8).drop (Wire.fromBe (response.take 8)))) = true) ∧
    (Merkle.MerkleTree.verify f index
        ((response.drop 8).take (Wire.fromBe (response.take 8))) rootBytes
        (Client.chunksExact32
          ((response.drop 8).drop (Wire.fromBe (response.take 8)))) = false →
      Client.getFile f rootHash index response = .error "Invalid proof") ∧
    (∀ (resp : Bytes) (e : String),
      Client.getFile f rootHash index resp = .error e →
      Client.download f rootHash fname index resp = .error e) := by
  have h1 : Wire.readExact 8 response =
      some (response.take 8, response.drop 8) := by
    simp [Wire.readExact, h8]
  have h2 : Wire.readExact (Wire.fromBe (response.take 8)) (response.drop 8) =
      some ((response.drop 8).take (Wire.fromBe (response.take 8)),
        (response.drop 8).drop (Wire.fromBe (response.take 8))) := by
    unfold Wire.readExact
    rw [if_pos hsz]
  refine ⟨?_, ?_, ?_⟩
  · simp only [Client.getFile, h1, h2, hhex, if_pos h32]
    by_cases hv : Merkle.MerkleTree.verify f index
        ((response.drop 8).take (Wire.fromBe (response.take 8))) rootBytes
        (Client.chunksExact32
          ((response.drop 8).drop (Wire.fromBe (response.take 8)))) = true
    · simp [hv]
    · simp [hv]
  · intro hv
    simp only [Client.getFile, h1, h2, hhex, if_pos h32]
    rw [hv]
    simp
  · intro resp e he
    simp only [Client.download, he]

/-- The root-hash text the C5 witness uses: sixty-four `'0'` characters,
decoding to the 32-byte all-zero digest. -/
def c5root : List Char := List.replicate 64 '0'

/-- The server response the C5 witness uses: file size 1, file `[42]`,
empty proof trailer. -/
def c5resp : Bytes := Wire.toBe8 1 ++ [42]

/-- C5, witness: with the constant all-zero digest function, the one-byte
file `[42]` under the all-zero root verifies with the empty proof and
`get_file` accepts it; the error-propagation conjunct is instantiated
too. -/
theorem c5_witness :
    (Client.getFile zeroHash c5root 0 c5resp =
        .ok ((c5resp.drop 8).take (Wire.fromBe (c5resp.take 8))) ↔
      Merkle.MerkleTree.verify zeroHash 0
        ((c5resp.drop 8).take (Wire.fromBe (c5resp.take 8)))
        (List.replicate 32 0)
        (Client.chunksExact32
          ((c5resp.drop 8).drop (Wire.fromBe (c5resp.take 8)))) = true) ∧
    (Merkle.MerkleTree.verify zeroHash 0
        ((c5resp.drop 8).take (Wire.fromBe (c5resp.take 8)))
        (List.replicate 32 0)
        (Client.chunksExact32
          ((c5resp.drop 8).drop (Wire.fromBe (c5resp.take 8)))) = false →
      Client.getFile zeroHash c5root 0 c5resp = .error "Invalid proof") ∧
    (∀ (resp : Bytes) (e : String),
      Client.getFile zeroHash c5root 0 resp = .error e →
      Client.download zeroHash c5root "guarded.bin" 0 resp = .error e) :=
  c5_verification_gate zeroHash c5root "guarded.bin" 0 c5resp
    (List.replicate 32 0) (by decide) (by decide) (by decide) (by decide)

/-- C10, counterexample: with the store directory already present and a
previous run's longer index file on disk, `Db::new` does NOT leave the
file holding the empty map's serialization: it opens the file without
truncation and writes `"\x7b\x7d"` at the start, so the old bytes past the
first two survive. Concretely, for prior contents
`[91, 34, 120, 34, 93, 0, 0, 93]` the resulting file is
`"\x7b\x7d" ++ [120, 34, 93, 0, 0, 93]`, not `"\x7b\x7d"`. -/
theorem c10_counterexample :
    (Db.dbNew true [91, 34, 120, 34, 93, 0, 0, 93]).2 ≠
      Db.emptyMapJson ∧
    (Db.dbNew true [91, 34, 120, 34, 93, 0, 0, 93]).2 =
      Db.emptyMapJson ++ [120, 34, 93, 0, 0, 93] := by
  exact ⟨by decide, by decide⟩

/-- C10 (amended): right after `Db::new` the in-memory uploads map is
empty — `get_uploads` is the empty map and `get_index` is `None` for every
root hash and filename — regardless of whether the store directory
existed and of what the on-disk JSON contained, and nothing ever loads
the previous run's mappings back. On an existing store directory
`Db::new` writes the empty map's JSON from position 0 without truncating,
so the file starts with `"\x7b\x7d"` while prior bytes beyond the first
two remain; on a fresh directory the file is created empty. -/
theorem c10_db_new_state (root fname : String) (dirExists : Bool)
    (old : Bytes) :
    (Db.dbNew dirExists old).1.uploads = [] ∧
    Db.getUploads (Db.dbNew dirExists old).1 = [] ∧
    Db.getIndex (Db.dbNew dirExists old).1 root fname = none ∧
    (Db.dbNew true old).2 = Db.emptyMapJson ++ old.drop 2 ∧
    (Db.dbNew false old).2 = [] :=
  ⟨rfl, rfl, rfl, rfl, rfl⟩
